import Mathlib

/-!
Verification of the jittered fractional indexing core (`src/index.ts`).

The TypeScript module builds a jittering layer on top of the external
`fractional-indexing` package.  The external package is out of scope of the
repository, so it is embedded abstractly: `Prim` is the type of the
unjittered single-key primitive (`generateKeyBetween` from
`fractional-indexing`) and `PrimN` the type of the unjittered batch
primitive (`generateNKeysBetween`).  The contract the spec assumes of them
("returns a key strictly between any two bounds it is given") is stated as a
hypothesis about the calls a run actually makes, recorded in an event trace.

JavaScript `string | null | undefined` bounds become `Option String`
(`none` is the absent bound), JavaScript numbers used for `jitterBits` / `n`
become `Rat` (so that the `Number.isInteger` check is expressible), and the
caller supplied zero-argument random-bit function is modelled as a stream
`bits : Nat → Bool` together with the index of the next bit to draw; each
invocation of the source reads one stream element and advances the index.
Errors thrown with `throw new Error(msg)` become `Except.error msg`.

Every function returns, besides its value, the ordered list of external
effects it performed (`Event`): calls to the unjittered primitives and draws
from the random-bit source.
-/

namespace JitteredFractionalIndexing

/-- Type of the external unjittered single-key primitive
(`generateKeyBetween` of the `fractional-indexing` package): lower bound,
upper bound, optional digit alphabet. -/
abbrev Prim := Option String → Option String → Option String → String

/-- Type of the external unjittered batch primitive
(`generateNKeysBetween` of the `fractional-indexing` package): bounds,
count, optional digit alphabet. -/
abbrev PrimN := Option String → Option String → Nat → Option String → List String

/-- Kernel-computable decidability of the lexicographic string order
(the library instance is stated through `String.ltb`, which does not reduce
in the kernel). -/
instance strDecLT : @DecidableRel String (· < ·) := fun s t =>
  decidable_of_iff (s.toList < t.toList) String.lt_iff_toList_lt.symm

/-- Kernel-computable decidability of the reflexive string order. -/
instance strDecLE : @DecidableRel String (· ≤ ·) := fun s t =>
  decidable_of_iff (s.toList ≤ t.toList) String.le_iff_toList_le.symm

/-- Kernel-computable decidability of `List.Chain`. -/
instance decChainC {α : Type} (R : α → α → Prop) [DecidableRel R] (a : α) :
    (l : List α) → Decidable (List.Chain R a l)
  | [] => Decidable.isTrue List.Chain.nil
  | b :: l =>
    have : Decidable (List.Chain R b l) := decChainC R b l
    decidable_of_iff (R a b ∧ List.Chain R b l) List.chain_cons.symm

/-- Kernel-computable decidability of `List.Chain'`. -/
instance decChainC' {α : Type} (R : α → α → Prop) [DecidableRel R] :
    (l : List α) → Decidable (List.Chain' R l)
  | [] => Decidable.isTrue trivial
  | a :: l => inferInstanceAs (Decidable (List.Chain R a l))

/-- Kernel-computable decidable equality for `Except`. -/
instance decEqExcept {ε α : Type} [DecidableEq ε] [DecidableEq α] :
    (x y : Except ε α) → Decidable (x = y)
  | Except.error e, Except.error f => decidable_of_iff (e = f) (by simp)
  | Except.error _, Except.ok _ => Decidable.isFalse (fun h => Except.noConfusion h)
  | Except.ok _, Except.error _ => Decidable.isFalse (fun h => Except.noConfusion h)
  | Except.ok a, Except.ok b => decidable_of_iff (a = b) (by simp)

/-- An external effect performed by the engine: one call to the unjittered
single primitive, one call to the unjittered batch primitive, or one draw
from the random-bit source. -/
inductive Event where
  | primSingle (low high digits : Option String)
  | primBatch (low high : Option String) (count : Nat) (digits : Option String)
  | randBit (b : Bool)
deriving Repr, DecidableEq

/-- The `opts` object of the two public operations.  `getRandomBit` is kept
outside the structure: it is modelled by the bit stream parameter. -/
structure JitterOpts where
  digits : Option String
  jitterBits : Option Rat
deriving Repr, DecidableEq

/-- The constant `DEFAULT_JITTER_BITS` from the source. -/
def DEFAULT_JITTER_BITS : Rat := 30

/-- The `must be an integer` message of `assertIsPositiveInteger`
(it names the parameter and the offending value). -/
def intErrMsg (paramName : String) (n : Rat) : String :=
  "\"" ++ paramName ++ "\" must be an integer, got " ++ toString n

/-- The `must be greater than or equal to 0` message of
`assertIsPositiveInteger` (it names the parameter and the offending value). -/
def nonNegErrMsg (paramName : String) (n : Rat) : String :=
  "\"" ++ paramName ++ "\" must be greater than or equal to 0, got " ++ toString n

/-- The validator `assertIsPositiveInteger` from the source: first the `Number.isInteger`
check (for a rational, integrality is `den = 1`), then the sign check. -/
def assertIsPositiveInteger (paramName : String) (n : Rat) : Except String Unit :=
  if n.den ≠ 1 then Except.error (intErrMsg paramName n)
  else if n < 0 then Except.error (nonNegErrMsg paramName n)
  else Except.ok ()

/-- The message `assertIsPositiveInteger` fails with on an invalid value. -/
def validationError (paramName : String) (n : Rat) : String :=
  if n.den ≠ 1 then intErrMsg paramName n else nonNegErrMsg paramName n

/-- The `while (remainingJitterBits > 0)` loop of `generateKeyBetween`:
draw a bit, move the matching bound to the midpoint, recompute the midpoint
with the unjittered primitive.  Arguments after the fuel are the mutable
locals `low`, `high`, `midpoint` and the index of the next random bit.
Returns the final midpoint, the events performed and the next bit index. -/
def jitterLoop (prim : Prim) (digits : Option String) (bits : Nat → Bool) :
    Nat → Option String → Option String → String → Nat →
    String × List Event × Nat
  | 0, _, _, midpoint, i => (midpoint, [], i)
  | k + 1, low, high, midpoint, i =>
    let low' := if bits i then some midpoint else low
    let high' := if bits i then high else some midpoint
    let mid' := prim low' high' digits
    let r := jitterLoop prim digits bits k low' high' mid' (i + 1)
    (r.1, Event.randBit (bits i) :: Event.primSingle low' high' digits :: r.2.1, r.2.2)

/-- The operation `generateKeyBetween` from the source: validate `jitterBits` (defaulted
to 30), compute the initial midpoint, then narrow `jitterBits` times. -/
def generateKeyBetween (prim : Prim) (bits : Nat → Bool)
    (a b : Option String) (opts : JitterOpts) (i₀ : Nat) :
    Except String String × List Event × Nat :=
  let digits := opts.digits
  let jitterBits := opts.jitterBits.getD DEFAULT_JITTER_BITS
  match assertIsPositiveInteger "jitterBits" jitterBits with
  | Except.error e => (Except.error e, [], i₀)
  | Except.ok _ =>
    let r := jitterLoop prim digits bits jitterBits.num.toNat a b (prim a b digits) i₀
    (Except.ok r.1, Event.primSingle a b digits :: r.2.1, r.2.2)

/-- The `for (let i = 0; i < n; i++)` loop of `generateNKeysBetween`:
jitter one key in each gap `(keys[i], keys[i+1])`.  An out-of-range access
`keys[i]` is `undefined` in JavaScript, i.e. the absent bound, which is
exactly `List.get?`. -/
def gapLoop (prim : Prim) (bits : Nat → Bool) (opts : JitterOpts)
    (keys : List String) :
    Nat → Nat → Nat → Except String (List String) × List Event × Nat
  | _, 0, idx => (Except.ok [], [], idx)
  | i, k + 1, idx =>
    let r := generateKeyBetween prim bits (keys.get? i) (keys.get? (i + 1)) opts idx
    match r.1 with
    | Except.error e => (Except.error e, r.2.1, r.2.2)
    | Except.ok key =>
      let rest := gapLoop prim bits opts keys (i + 1) k r.2.2
      (rest.1.map (fun l => key :: l), r.2.1 ++ rest.2.1, rest.2.2)

/-- The operation `generateNKeysBetween` from the source: validate `n`, return `[]` for
`n = 0`, fall back on the unjittered batch primitive when `jitterBits` is
explicitly `0`, otherwise request `n + 1` boundary keys and jitter one key
per gap. -/
def generateNKeysBetween (prim : Prim) (primN : PrimN) (bits : Nat → Bool)
    (a b : Option String) (n : Rat) (opts : JitterOpts) (i₀ : Nat) :
    Except String (List String) × List Event × Nat :=
  let digits := opts.digits
  match assertIsPositiveInteger "n" n with
  | Except.error e => (Except.error e, [], i₀)
  | Except.ok _ =>
    if n = 0 then (Except.ok [], [], i₀)
    else if opts.jitterBits = some 0 then
      (Except.ok (primN a b n.num.toNat digits),
        [Event.primBatch a b n.num.toNat digits], i₀)
    else
      let keys := primN a b (n.num.toNat + 1) digits
      let r := gapLoop prim bits opts keys 0 n.num.toNat i₀
      (r.1, Event.primBatch a b (n.num.toNat + 1) digits :: r.2.1, r.2.2)

/-- Key `s` is strictly above the lower bound `low` (vacuous when absent). -/
def ltLow : Option String → String → Prop
  | none, _ => True
  | some l, s => l < s

/-- Key `s` is strictly below the upper bound `high` (vacuous when absent). -/
def ltHigh : String → Option String → Prop
  | _, none => True
  | s, some h => s < h

/-- Key `s` lies strictly inside the interval `(low, high)`; absent bounds are
unbounded. -/
def InBounds (low high : Option String) (s : String) : Prop :=
  ltLow low s ∧ ltHigh s high

/-- The contract of the unjittered batch primitive: `count` keys, strictly
increasing, strictly inside the bounds. -/
def BatchOk (low high : Option String) (count : Nat) (ks : List String) : Prop :=
  ks.length = count ∧ List.Chain' (· < ·) ks ∧ ∀ k ∈ ks, InBounds low high k

/-- The contract of the external primitives holds for one recorded call. -/
def EventOk (prim : Prim) (primN : PrimN) : Event → Prop
  | Event.primSingle low high digits => InBounds low high (prim low high digits)
  | Event.primBatch low high count digits => BatchOk low high count (primN low high count digits)
  | Event.randBit _ => True

/-- The contract of the external primitives holds for every call in the
trace: the primitives returned keys strictly between the bounds they were
given during this run. -/
def CallsOk (prim : Prim) (primN : PrimN) (events : List Event) : Prop :=
  ∀ e ∈ events, EventOk prim primN e

/-- The lower bound `a'` is at or above the lower bound `a`
(an absent bound is the weakest lower bound). -/
def boundAbove : Option String → Option String → Prop
  | none, _ => True
  | some _, none => False
  | some l, some m => l ≤ m

/-- The upper bound `b'` is at or below the upper bound `b`
(an absent bound is the weakest upper bound). -/
def boundBelow : Option String → Option String → Prop
  | _, none => True
  | none, some _ => False
  | some m, some h => m ≤ h

/-- The working state of the narrowing loop: the interval, the current
midpoint, and the index of the next random bit. -/
structure NarrowState where
  low : Option String
  high : Option String
  mid : String
  idx : Nat
deriving Repr, DecidableEq

/-- Specification-side description of one narrowing iteration, following
§4.2 step 4 of the spec: draw one boolean; if it is true raise the lower
bound to the current midpoint, if it is false lower the upper bound to the
current midpoint; then recompute the midpoint with one call to the
unjittered primitive on the new interval.  The implementation loop is
proved to be the iterate of this step. -/
def specNarrowStep (prim : Prim) (digits : Option String) (bits : Nat → Bool)
    (s : NarrowState) : NarrowState :=
  let low' := if bits s.idx then some s.mid else s.low
  let high' := if bits s.idx then s.high else some s.mid
  { low := low', high := high', mid := prim low' high' digits, idx := s.idx + 1 }

/-- Recognizes a random draw in the trace. -/
def isRandBit : Event → Bool
  | Event.randBit _ => true
  | _ => false

/-- Recognizes a call of the unjittered single-key primitive in the trace. -/
def isPrimSingle : Event → Bool
  | Event.primSingle _ _ _ => true
  | _ => false

/-- A `jitterBits` option value the validator accepts: absent, or a
non-negative integer. -/
def ValidJitterBits (o : Option Rat) : Prop :=
  o = none ∨ ∃ jb : Nat, o = some (jb : Rat)

instance : (low : Option String) → (s : String) → Decidable (ltLow low s)
  | none, _ => Decidable.isTrue trivial
  | some l, s => inferInstanceAs (Decidable (l < s))

instance : (s : String) → (high : Option String) → Decidable (ltHigh s high)
  | _, none => Decidable.isTrue trivial
  | s, some h => inferInstanceAs (Decidable (s < h))

instance (low high : Option String) (s : String) : Decidable (InBounds low high s) :=
  inferInstanceAs (Decidable (_ ∧ _))

instance (low high : Option String) (count : Nat) (ks : List String) :
    Decidable (BatchOk low high count ks) :=
  inferInstanceAs (Decidable (_ ∧ _ ∧ _))

instance (prim : Prim) (primN : PrimN) : (e : Event) → Decidable (EventOk prim primN e)
  | Event.primSingle low high digits =>
      inferInstanceAs (Decidable (InBounds low high (prim low high digits)))
  | Event.primBatch low high count digits =>
      inferInstanceAs (Decidable (BatchOk low high count (primN low high count digits)))
  | Event.randBit _ => Decidable.isTrue trivial

instance (prim : Prim) (primN : PrimN) (events : List Event) :
    Decidable (CallsOk prim primN events) :=
  inferInstanceAs (Decidable (∀ e ∈ events, EventOk prim primN e))

instance : (a a' : Option String) → Decidable (boundAbove a a')
  | none, _ => Decidable.isTrue trivial
  | some _, none => Decidable.isFalse id
  | some l, some m => inferInstanceAs (Decidable (l ≤ m))

instance : (b' b : Option String) → Decidable (boundBelow b' b)
  | none, none => Decidable.isTrue trivial
  | some _, none => Decidable.isTrue trivial
  | none, some _ => Decidable.isFalse id
  | some m, some h => inferInstanceAs (Decidable (m ≤ h))

/-- A concrete unjittered single-key primitive used to instantiate the
abstract collaborator in witnesses. -/
def primW : Prim := fun low _ _ =>
  match low with
  | none => "c"
  | some l => l ++ "b"

/-- A concrete unjittered batch primitive used in witnesses. -/
def primNW : PrimN := fun _ _ count _ =>
  (List.range count).map (fun i => String.mk ('b' :: 'b' :: List.replicate i 'c'))

/-- A concrete random-bit stream used in witnesses. -/
def bitsW : Nat → Bool := fun _ => true

/-! ### Helper lemmas -/

lemma natCast_rat_den (n : Nat) : ((n : Nat) : Rat).den = 1 := by
  exact_mod_cast Rat.den_intCast (n : Int)

lemma natCast_rat_num_toNat (n : Nat) : ((n : Nat) : Rat).num.toNat = n := by
  have h : ((n : Nat) : Rat).num = (n : Int) := by exact_mod_cast Rat.num_intCast (n : Int)
  simp [h]

lemma assert_ok_natCast (name : String) (n : Nat) :
    assertIsPositiveInteger name ((n : Nat) : Rat) = Except.ok () := by
  simp [assertIsPositiveInteger, natCast_rat_den n]

lemma assert_error_of_invalid (name : String) (q : Rat) (hq : ¬ (q.den = 1 ∧ 0 ≤ q)) :
    assertIsPositiveInteger name q = Except.error (validationError name q) := by
  by_cases h1 : q.den = 1
  · have h2 : q < 0 := by
      by_contra h
      exact hq ⟨h1, le_of_not_lt h⟩
    simp [assertIsPositiveInteger, validationError, h1, h2]
  · simp [assertIsPositiveInteger, validationError, h1]

lemma validJitterBits_effective {o : Option Rat} (ho : ValidJitterBits o) :
    ∃ jb : Nat, o.getD DEFAULT_JITTER_BITS = ((jb : Nat) : Rat) := by
  rcases ho with h | ⟨jb, h⟩
  · exact ⟨30, by simp [h, DEFAULT_JITTER_BITS]⟩
  · exact ⟨jb, by simp [h]⟩

lemma CallsOk_cons {prim : Prim} {primN : PrimN} {e : Event} {l : List Event} :
    CallsOk prim primN (e :: l) ↔ EventOk prim primN e ∧ CallsOk prim primN l := by
  simp [CallsOk]

lemma CallsOk_append {prim : Prim} {primN : PrimN} {l₁ l₂ : List Event} :
    CallsOk prim primN (l₁ ++ l₂) ↔ CallsOk prim primN l₁ ∧ CallsOk prim primN l₂ := by
  constructor
  · intro h
    exact ⟨fun e he => h e (List.mem_append_left _ he),
           fun e he => h e (List.mem_append_right _ he)⟩
  · rintro ⟨h₁, h₂⟩ e he
    rcases List.mem_append.mp he with he | he
    · exact h₁ e he
    · exact h₂ e he

/-- Unfolding of `generateKeyBetween` when the effective `jitterBits` is the
non-negative integer `jb`. -/
lemma generateKeyBetween_valid (prim : Prim) (bits : Nat → Bool)
    (a b : Option String) (opts : JitterOpts) (i₀ : Nat) (jb : Nat)
    (hjb : opts.jitterBits.getD DEFAULT_JITTER_BITS = ((jb : Nat) : Rat)) :
    generateKeyBetween prim bits a b opts i₀ =
      (Except.ok (jitterLoop prim opts.digits bits jb a b (prim a b opts.digits) i₀).1,
       Event.primSingle a b opts.digits ::
         (jitterLoop prim opts.digits bits jb a b (prim a b opts.digits) i₀).2.1,
       (jitterLoop prim opts.digits bits jb a b (prim a b opts.digits) i₀).2.2) := by
  simp only [generateKeyBetween, hjb, assert_ok_natCast, natCast_rat_num_toNat]

lemma jitterLoop_idx (prim : Prim) (digits : Option String) (bits : Nat → Bool) :
    ∀ (k : Nat) (low high : Option String) (mid : String) (i : Nat),
      (jitterLoop prim digits bits k low high mid i).2.2 = i + k := by
  intro k
  induction k with
  | zero => intro low high mid i; simp [jitterLoop]
  | succ k ih =>
    intro low high mid i
    simp only [jitterLoop]
    rw [ih]
    omega

lemma jitterLoop_countP_rand (prim : Prim) (digits : Option String) (bits : Nat → Bool) :
    ∀ (k : Nat) (low high : Option String) (mid : String) (i : Nat),
      ((jitterLoop prim digits bits k low high mid i).2.1.countP isRandBit) = k := by
  intro k
  induction k with
  | zero => intro low high mid i; simp [jitterLoop]
  | succ k ih =>
    intro low high mid i
    simp only [jitterLoop, List.countP_cons]
    rw [ih]
    simp [isRandBit]

lemma jitterLoop_countP_single (prim : Prim) (digits : Option String) (bits : Nat → Bool) :
    ∀ (k : Nat) (low high : Option String) (mid : String) (i : Nat),
      ((jitterLoop prim digits bits k low high mid i).2.1.countP isPrimSingle) = k := by
  intro k
  induction k with
  | zero => intro low high mid i; simp [jitterLoop]
  | succ k ih =>
    intro low high mid i
    simp only [jitterLoop, List.countP_cons]
    rw [ih]
    simp [isRandBit, isPrimSingle]

lemma InBounds_widen_low {low high : Option String} {mid x : String}
    (hmid : InBounds low high mid) (hx : InBounds (some mid) high x) :
    InBounds low high x := by
  refine ⟨?_, hx.2⟩
  cases low with
  | none => trivial
  | some l =>
    have h1 : l < mid := hmid.1
    have h2 : mid < x := hx.1
    exact lt_trans h1 h2

lemma InBounds_widen_high {low high : Option String} {mid x : String}
    (hmid : InBounds low high mid) (hx : InBounds low (some mid) x) :
    InBounds low high x := by
  refine ⟨hx.1, ?_⟩
  cases high with
  | none => trivial
  | some h =>
    have h1 : mid < h := hmid.2
    have h2 : x < mid := hx.2
    exact lt_trans h2 h1

/-- The narrowing loop keeps its result strictly inside the interval it
starts from, provided the unjittered primitive honoured its contract on the
calls of the run and the starting midpoint is inside the interval. -/
lemma jitterLoop_inBounds (prim : Prim) (primN : PrimN) (digits : Option String)
    (bits : Nat → Bool) :
    ∀ (k : Nat) (low high : Option String) (mid : String) (i : Nat),
      CallsOk prim primN (jitterLoop prim digits bits k low high mid i).2.1 →
      InBounds low high mid →
      InBounds low high (jitterLoop prim digits bits k low high mid i).1 := by
  intro k
  induction k with
  | zero => intro low high mid i _ hmid; simpa [jitterLoop] using hmid
  | succ k ih =>
    intro low high mid i hcalls hmid
    cases hb : bits i with
    | true =>
      simp only [jitterLoop, hb, if_pos] at hcalls ⊢
      rw [CallsOk_cons, CallsOk_cons] at hcalls
      obtain ⟨-, hev, hrest⟩ := hcalls
      have hmid' : InBounds (some mid) high (prim (some mid) high digits) := hev
      exact InBounds_widen_low hmid (ih (some mid) high _ (i + 1) hrest hmid')
    | false =>
      simp only [jitterLoop, hb, if_neg] at hcalls ⊢
      rw [CallsOk_cons, CallsOk_cons] at hcalls
      obtain ⟨-, hev, hrest⟩ := hcalls
      have hmid' : InBounds low (some mid) (prim low (some mid) digits) := hev
      exact InBounds_widen_high hmid (ih low (some mid) _ (i + 1) hrest hmid')

/-- With a valid `jitterBits` option and the primitive contract on the calls
of the run, `generateKeyBetween` succeeds and its key is strictly inside the
requested interval. -/
lemma generateKeyBetween_ok_inBounds (prim : Prim) (primN : PrimN) (bits : Nat → Bool)
    (a b : Option String) (opts : JitterOpts) (i₀ : Nat)
    (hjb : ValidJitterBits opts.jitterBits)
    (hcalls : CallsOk prim primN (generateKeyBetween prim bits a b opts i₀).2.1) :
    ∃ key, (generateKeyBetween prim bits a b opts i₀).1 = Except.ok key ∧
      InBounds a b key := by
  obtain ⟨jb, hjb'⟩ := validJitterBits_effective hjb
  rw [generateKeyBetween_valid prim bits a b opts i₀ jb hjb'] at hcalls ⊢
  rw [CallsOk_cons] at hcalls
  obtain ⟨hev, hrest⟩ := hcalls
  have hmid : InBounds a b (prim a b opts.digits) := hev
  exact ⟨_, rfl, jitterLoop_inBounds prim primN opts.digits bits jb a b _ i₀ hrest hmid⟩

lemma InBounds_trans_outer {a b : Option String} {x y key : String}
    (hx : InBounds a b x) (hy : InBounds a b y) (h1 : x < key) (h2 : key < y) :
    InBounds a b key := by
  constructor
  · cases a with
    | none => trivial
    | some l =>
      have : l < x := hx.1
      exact lt_trans this h1
  · cases b with
    | none => trivial
    | some h =>
      have : y < h := hy.2
      exact lt_trans h2 this

lemma generateNKeysBetween_zero (prim : Prim) (primN : PrimN) (bits : Nat → Bool)
    (a b : Option String) (opts : JitterOpts) (i₀ : Nat) :
    generateNKeysBetween prim primN bits a b ((0 : Nat) : Rat) opts i₀ =
      (Except.ok [], [], i₀) := by
  have h : assertIsPositiveInteger "n" ((0 : Nat) : Rat) = Except.ok () :=
    assert_ok_natCast "n" 0
  simp only [generateNKeysBetween, h]
  norm_num

lemma generateNKeysBetween_pass (prim : Prim) (primN : PrimN) (bits : Nat → Bool)
    (a b digits : Option String) (n : Nat) (hn : n ≠ 0) (i₀ : Nat) :
    generateNKeysBetween prim primN bits a b ((n : Nat) : Rat) ⟨digits, some 0⟩ i₀ =
      (Except.ok (primN a b n digits), [Event.primBatch a b n digits], i₀) := by
  simp [generateNKeysBetween, assert_ok_natCast, natCast_rat_num_toNat,
    Nat.cast_eq_zero, hn]

lemma generateNKeysBetween_gapped (prim : Prim) (primN : PrimN) (bits : Nat → Bool)
    (a b digits : Option String) (jbo : Option Rat) (n : Nat) (hn : n ≠ 0)
    (hjb0 : jbo ≠ some (0 : Rat)) (i₀ : Nat) :
    generateNKeysBetween prim primN bits a b ((n : Nat) : Rat) ⟨digits, jbo⟩ i₀ =
      ((gapLoop prim bits ⟨digits, jbo⟩ (primN a b (n + 1) digits) 0 n i₀).1,
       Event.primBatch a b (n + 1) digits ::
         (gapLoop prim bits ⟨digits, jbo⟩ (primN a b (n + 1) digits) 0 n i₀).2.1,
       (gapLoop prim bits ⟨digits, jbo⟩ (primN a b (n + 1) digits) 0 n i₀).2.2) := by
  simp [generateNKeysBetween, assert_ok_natCast, natCast_rat_num_toNat,
    Nat.cast_eq_zero, hn, hjb0]

/-- The gap loop succeeds for a valid `jitterBits` option and, under the
primitive contract for the calls of the run, returns one key per gap,
each strictly inside its own gap. -/
lemma gapLoop_spec (prim : Prim) (primN : PrimN) (bits : Nat → Bool)
    (opts : JitterOpts) (keys : List String)
    (hjb : ValidJitterBits opts.jitterBits) :
    ∀ (k i idx : Nat),
      CallsOk prim primN (gapLoop prim bits opts keys i k idx).2.1 →
      ∃ out, (gapLoop prim bits opts keys i k idx).1 = Except.ok out ∧
        out.length = k ∧
        ∀ j, j < k → ∃ kj, out.get? j = some kj ∧
          InBounds (keys.get? (i + j)) (keys.get? (i + j + 1)) kj := by
  intro k
  induction k with
  | zero =>
    intro i idx _
    exact ⟨[], rfl, rfl, fun j hj => absurd hj (Nat.not_lt_zero j)⟩
  | succ k ih =>
    intro i idx hcalls
    obtain ⟨jb, hjb'⟩ := validJitterBits_effective hjb
    have hred := generateKeyBetween_valid prim bits (keys.get? i) (keys.get? (i + 1)) opts idx jb hjb'
    simp only [gapLoop, hred] at hcalls ⊢
    rw [CallsOk_append] at hcalls
    obtain ⟨hev, hrest⟩ := hcalls
    rw [CallsOk_cons] at hev
    obtain ⟨h0, hloop⟩ := hev
    have hin : InBounds (keys.get? i) (keys.get? (i + 1))
        ((jitterLoop prim opts.digits bits jb (keys.get? i) (keys.get? (i + 1))
          (prim (keys.get? i) (keys.get? (i + 1)) opts.digits) idx).1) :=
      jitterLoop_inBounds prim primN opts.digits bits jb _ _ _ idx hloop h0
    obtain ⟨out, hout, hlen, hspec⟩ := ih (i + 1) _ hrest
    set key := (jitterLoop prim opts.digits bits jb (keys.get? i) (keys.get? (i + 1))
      (prim (keys.get? i) (keys.get? (i + 1)) opts.digits) idx).1 with hkeydef
    refine ⟨key :: out, ?_, ?_, ?_⟩
    · rw [hout]; rfl
    · simp [hlen]
    · intro j hj
      cases j with
      | zero => exact ⟨_, rfl, by simpa using hin⟩
      | succ j =>
        obtain ⟨kj, hk1, hk2⟩ := hspec j (Nat.lt_of_succ_lt_succ hj)
        refine ⟨kj, hk1, ?_⟩
        have hidx : i + (j + 1) = i + 1 + j := by omega
        rw [hidx]
        exact hk2

/-- Claim C1: with both bounds present and ordered, a non-negative integer
`jitterBits`, and the unjittered primitive returning keys strictly between
the bounds it was given during the run, `generateKeyBetween` returns a key
strictly between the bounds in the lexicographic string order. -/
theorem generateKeyBetween_strictly_between
    (prim : Prim) (primN : PrimN) (bits : Nat → Bool) (l h : String)
    (digits : Option String) (jb : Nat) (i₀ : Nat)
    (_hlh : l < h)
    (hcalls : CallsOk prim primN
      (generateKeyBetween prim bits (some l) (some h)
        ⟨digits, some ((jb : Nat) : Rat)⟩ i₀).2.1) :
    ∃ key, (generateKeyBetween prim bits (some l) (some h)
        ⟨digits, some ((jb : Nat) : Rat)⟩ i₀).1 = Except.ok key ∧
      l < key ∧ key < h := by
  obtain ⟨key, hok, hin⟩ := generateKeyBetween_ok_inBounds prim primN bits
    (some l) (some h) ⟨digits, some ((jb : Nat) : Rat)⟩ i₀ (Or.inr ⟨jb, rfl⟩) hcalls
  exact ⟨key, hok, hin.1, hin.2⟩

/-- Witness for C1 at a concrete primitive, bit stream and bounds. -/
theorem generateKeyBetween_strictly_between_witness :
    "b" < "d" ∧
    CallsOk primW primNW
      (generateKeyBetween primW bitsW (some "b") (some "d")
        ⟨none, some ((2 : Nat) : Rat)⟩ 0).2.1 ∧
    ∃ key, (generateKeyBetween primW bitsW (some "b") (some "d")
        ⟨none, some ((2 : Nat) : Rat)⟩ 0).1 = Except.ok key ∧
      "b" < key ∧ key < "d" :=
  ⟨by decide, by decide,
    generateKeyBetween_strictly_between primW primNW bitsW "b" "d" none 2 0
      (by decide) (by decide)⟩

/-- Claim C2: for every count `n` and bounds, a valid `jitterBits` option,
and the unjittered primitives honouring their contract on the calls of the
run, `generateNKeysBetween` returns exactly `n` keys, strictly increasing,
each strictly between the bounds (vacuously when a bound is absent). -/
theorem generateNKeysBetween_count_order_bounds
    (prim : Prim) (primN : PrimN) (bits : Nat → Bool) (a b : Option String)
    (digits : Option String) (jbo : Option Rat) (n : Nat) (i₀ : Nat)
    (hjb : ValidJitterBits jbo)
    (hcalls : CallsOk prim primN
      (generateNKeysBetween prim primN bits a b ((n : Nat) : Rat) ⟨digits, jbo⟩ i₀).2.1) :
    ∃ out, (generateNKeysBetween prim primN bits a b ((n : Nat) : Rat) ⟨digits, jbo⟩ i₀).1
        = Except.ok out ∧ out.length = n ∧ List.Chain' (· < ·) out ∧
      ∀ key ∈ out, InBounds a b key := by
  rcases Nat.eq_zero_or_pos n with hn | hn
  · subst hn
    rw [generateNKeysBetween_zero]
    exact ⟨[], rfl, rfl, List.chain'_nil, by simp⟩
  by_cases hjb0 : jbo = some (0 : Rat)
  · subst hjb0
    rw [generateNKeysBetween_pass prim primN bits a b digits n hn.ne' i₀] at hcalls ⊢
    have hev : EventOk prim primN (Event.primBatch a b n digits) :=
      hcalls _ (List.mem_singleton_self _)
    obtain ⟨hlen, hchain, hmem⟩ := hev
    exact ⟨primN a b n digits, rfl, hlen, hchain, hmem⟩
  · rw [generateNKeysBetween_gapped prim primN bits a b digits jbo n hn.ne' hjb0 i₀]
      at hcalls ⊢
    rw [CallsOk_cons] at hcalls
    obtain ⟨hbatchEv, hgaps⟩ := hcalls
    obtain ⟨hklen, hkchain, hkmem⟩ :
        BatchOk a b (n + 1) (primN a b (n + 1) digits) := hbatchEv
    set keys := primN a b (n + 1) digits with hkeys
    obtain ⟨out, hout, hlen, hspec⟩ :=
      gapLoop_spec prim primN bits ⟨digits, jbo⟩ keys hjb n 0 i₀ hgaps
    simp only [Nat.zero_add] at hspec
    refine ⟨out, hout, hlen, ?_, ?_⟩
    · rw [List.chain'_iff_get]
      intro j hj
      have hjn : j < n := by omega
      have hjn1 : j + 1 < n := by omega
      obtain ⟨kj, hkj, hinj⟩ := hspec j hjn
      obtain ⟨kj1, hkj1, hinj1⟩ := hspec (j + 1) hjn1
      have hx : keys.get? (j + 1) = some (keys.get ⟨j + 1, by omega⟩) :=
        List.get?_eq_get (by omega)
      rw [hx] at hinj hinj1
      have h1 : kj < keys.get ⟨j + 1, by omega⟩ := hinj.2
      have h2 : keys.get ⟨j + 1, by omega⟩ < kj1 := hinj1.1
      have hgj : out.get ⟨j, by omega⟩ = kj := by
        have := (List.get?_eq_get (l := out) (n := j) (by omega)).symm.trans hkj
        exact Option.some.inj this
      have hgj1 : out.get ⟨j + 1, by omega⟩ = kj1 := by
        have := (List.get?_eq_get (l := out) (n := j + 1) (by omega)).symm.trans hkj1
        exact Option.some.inj this
      rw [hgj, hgj1]
      exact lt_trans h1 h2
    · intro key hkey
      obtain ⟨j, hj⟩ := List.mem_iff_get?.mp hkey
      have hjlt : j < out.length := (List.get?_eq_some.mp hj).1
      have hjn : j < n := by omega
      obtain ⟨kj, hkj, hinj⟩ := hspec j hjn
      have hkeyeq : key = kj := Option.some.inj (hj.symm.trans hkj)
      subst hkeyeq
      have hx : keys.get? j = some (keys.get ⟨j, by omega⟩) :=
        List.get?_eq_get (by omega)
      have hy : keys.get? (j + 1) = some (keys.get ⟨j + 1, by omega⟩) :=
        List.get?_eq_get (by omega)
      rw [hx, hy] at hinj
      have hxmem : keys.get ⟨j, by omega⟩ ∈ keys := List.get_mem keys j (by omega)
      have hymem : keys.get ⟨j + 1, by omega⟩ ∈ keys := List.get_mem keys (j + 1) (by omega)
      exact InBounds_trans_outer (hkmem _ hxmem) (hkmem _ hymem) hinj.1 hinj.2

/-- Witness for C2 at a concrete primitive pair, bit stream and bounds. -/
theorem generateNKeysBetween_count_order_bounds_witness :
    ValidJitterBits (some ((1 : Nat) : Rat)) ∧
    CallsOk primW primNW
      (generateNKeysBetween primW primNW bitsW (some "b") (some "d")
        ((2 : Nat) : Rat) ⟨none, some ((1 : Nat) : Rat)⟩ 0).2.1 ∧
    ∃ out, (generateNKeysBetween primW primNW bitsW (some "b") (some "d")
        ((2 : Nat) : Rat) ⟨none, some ((1 : Nat) : Rat)⟩ 0).1 = Except.ok out ∧
      out.length = 2 ∧ List.Chain' (· < ·) out ∧
      ∀ key ∈ out, InBounds (some "b") (some "d") key :=
  ⟨Or.inr ⟨1, rfl⟩, by decide,
    generateNKeysBetween_count_order_bounds primW primNW bitsW (some "b") (some "d")
      none (some ((1 : Nat) : Rat)) 2 0 (Or.inr ⟨1, rfl⟩) (by decide)⟩

/-- Claim C3: when the effective `jitterBits` of `generateKeyBetween`
(respectively the `n` of `generateNKeysBetween`) is negative or not an
integer, the call fails with the validation message naming the parameter
and its value, and it fails before any other work: the event trace is empty
(no unjittered primitive call, no random draw) and no result is built. -/
theorem validation_fails_before_work
    (prim : Prim) (primN : PrimN) (bits : Nat → Bool) (a b : Option String)
    (opts : JitterOpts) (q : Rat) (i₀ : Nat)
    (hq : ¬ (q.den = 1 ∧ 0 ≤ q)) :
    (opts.jitterBits.getD DEFAULT_JITTER_BITS = q →
      generateKeyBetween prim bits a b opts i₀ =
        (Except.error (validationError "jitterBits" q), [], i₀)) ∧
    generateNKeysBetween prim primN bits a b q opts i₀ =
      (Except.error (validationError "n" q), [], i₀) := by
  constructor
  · intro heff
    have herr := assert_error_of_invalid "jitterBits" q hq
    simp only [generateKeyBetween, heff, herr]
  · have herr := assert_error_of_invalid "n" q hq
    simp only [generateNKeysBetween, herr]

/-- Witness for C3 at the concrete invalid value `-1`. -/
theorem validation_fails_before_work_witness :
    ¬ ((Rat.mk' (-1) 1).den = 1 ∧ 0 ≤ Rat.mk' (-1) 1) ∧
    generateKeyBetween primW bitsW (some "b") (some "d")
        ⟨none, some (Rat.mk' (-1) 1)⟩ 0 =
      (Except.error (validationError "jitterBits" (Rat.mk' (-1) 1)), [], 0) ∧
    generateNKeysBetween primW primNW bitsW (some "b") (some "d")
        (Rat.mk' (-1) 1) ⟨none, none⟩ 0 =
      (Except.error (validationError "n" (Rat.mk' (-1) 1)), [], 0) :=
  ⟨by decide,
   (validation_fails_before_work primW primNW bitsW (some "b") (some "d")
      ⟨none, some (Rat.mk' (-1) 1)⟩ (Rat.mk' (-1) 1) 0 (by decide)).1 rfl,
   (validation_fails_before_work primW primNW bitsW (some "b") (some "d")
      ⟨none, none⟩ (Rat.mk' (-1) 1) 0 (by decide)).2⟩

/-- Claim C5: with `jitterBits` explicitly `0` and a positive count, the
batch operation returns exactly the unjittered batch primitive result for
that count and the configured digits, the only event being that single
batch call: no random draw, no other primitive call. -/
theorem generateNKeysBetween_zero_jitter_passthrough
    (prim : Prim) (primN : PrimN) (bits : Nat → Bool) (a b digits : Option String)
    (n : Nat) (i₀ : Nat) :
    generateNKeysBetween prim primN bits a b (((n + 1 : Nat)) : Rat)
        ⟨digits, some 0⟩ i₀ =
      (Except.ok (primN a b (n + 1) digits),
       [Event.primBatch a b (n + 1) digits], i₀) :=
  generateNKeysBetween_pass prim primN bits a b digits (n + 1) (Nat.succ_ne_zero n) i₀

/-- Claim C6: with `jitterBits = 0`, `generateKeyBetween` performs exactly
one call to the unjittered primitive on the given bounds and digits and
returns its result, drawing no random bit; consequently any two calls with
the same bounds and digits return the same key, whatever the bit streams. -/
theorem generateKeyBetween_zero_jitter_unjittered
    (prim : Prim) (bits bits' : Nat → Bool) (a b digits : Option String)
    (i₀ i₁ : Nat) :
    generateKeyBetween prim bits a b ⟨digits, some 0⟩ i₀ =
      (Except.ok (prim a b digits), [Event.primSingle a b digits], i₀) ∧
    (generateKeyBetween prim bits a b ⟨digits, some 0⟩ i₀).1 =
      (generateKeyBetween prim bits' a b ⟨digits, some 0⟩ i₁).1 := by
  have h := generateKeyBetween_valid prim bits a b ⟨digits, some 0⟩ i₀ 0 (by simp)
  have h' := generateKeyBetween_valid prim bits' a b ⟨digits, some 0⟩ i₁ 0 (by simp)
  constructor
  · rw [h]; simp [jitterLoop]
  · rw [h, h']; simp [jitterLoop]

/-- Claim C8: with `n = 0` the batch operation returns the empty sequence
with an empty event trace (no primitive call, no random draw), whatever the
options value. -/
theorem generateNKeysBetween_n_zero_empty
    (prim : Prim) (primN : PrimN) (bits : Nat → Bool) (a b : Option String)
    (opts : JitterOpts) (i₀ : Nat) :
    generateNKeysBetween prim primN bits a b 0 opts i₀ = (Except.ok [], [], i₀) := by
  have h := generateNKeysBetween_zero prim primN bits a b opts i₀
  simpa using h

/-- Claim C10: on a non-integer value the validator fails with the
must-be-an-integer message whatever the sign: the integrality check is
applied before the sign check. -/
theorem integer_check_precedes_sign_check
    (name : String) (q : Rat) (hq : q.den ≠ 1) :
    assertIsPositiveInteger name q = Except.error (intErrMsg name q) := by
  simp [assertIsPositiveInteger, hq]

/-- Witness for C10 at the negative non-integer `-3/2`: the failure message
is the integer one, not the non-negativity one. -/
theorem integer_check_precedes_sign_check_witness :
    (Rat.mk' (-3) 2).den ≠ 1 ∧
    Rat.mk' (-3) 2 < 0 ∧
    assertIsPositiveInteger "jitterBits" (Rat.mk' (-3) 2) =
      Except.error (intErrMsg "jitterBits" (Rat.mk' (-3) 2)) ∧
    intErrMsg "jitterBits" (Rat.mk' (-3) 2) ≠
      nonNegErrMsg "jitterBits" (Rat.mk' (-3) 2) :=
  ⟨by decide, by decide,
   integer_check_precedes_sign_check "jitterBits" (Rat.mk' (-3) 2) (by decide),
   by decide⟩

/-- The implementation loop computes the midpoint of the iterated
specification step. -/
lemma jitterLoop_fst_iterate (prim : Prim) (digits : Option String) (bits : Nat → Bool) :
    ∀ (k : Nat) (s : NarrowState),
      (jitterLoop prim digits bits k s.low s.high s.mid s.idx).1 =
        ((specNarrowStep prim digits bits)^[k] s).mid := by
  intro k
  induction k with
  | zero => intro s; simp [jitterLoop]
  | succ k ih =>
    intro s
    rw [Function.iterate_succ_apply]
    have h := ih (specNarrowStep prim digits bits s)
    cases hb : bits s.idx with
    | true =>
      simp only [jitterLoop, specNarrowStep, hb] at h ⊢
      simpa using h
    | false =>
      simp only [jitterLoop, specNarrowStep, hb] at h ⊢
      simpa using h

lemma gapLoop_rand_count (prim : Prim) (bits : Nat → Bool) (opts : JitterOpts)
    (keys : List String) (jb : Nat)
    (hjb : opts.jitterBits.getD DEFAULT_JITTER_BITS = ((jb : Nat) : Rat)) :
    ∀ (k i idx : Nat),
      (gapLoop prim bits opts keys i k idx).2.1.countP isRandBit = k * jb ∧
      (gapLoop prim bits opts keys i k idx).2.2 = idx + k * jb := by
  intro k
  induction k with
  | zero => intro i idx; simp [gapLoop]
  | succ k ih =>
    intro i idx
    have hred := generateKeyBetween_valid prim bits (keys.get? i) (keys.get? (i + 1))
      opts idx jb hjb
    simp only [gapLoop, hred]
    obtain ⟨ih1, ih2⟩ := ih (i + 1)
      ((jitterLoop prim opts.digits bits jb (keys.get? i) (keys.get? (i + 1))
        (prim (keys.get? i) (keys.get? (i + 1)) opts.digits) idx).2.2)
    constructor
    · simp only [List.countP_append, List.countP_cons, jitterLoop_countP_rand, ih1,
        isRandBit]
      simp
      ring
    · rw [ih2, jitterLoop_idx]
      ring

lemma gapLoop_blocks (prim : Prim) (bits : Nat → Bool) (opts : JitterOpts)
    (keys : List String) (jb : Nat)
    (hjb : opts.jitterBits.getD DEFAULT_JITTER_BITS = ((jb : Nat) : Rat)) :
    ∀ (k i idx : Nat), ∃ blocks : List (List Event),
      (gapLoop prim bits opts keys i k idx).2.1 = blocks.flatten ∧
      blocks.length = k ∧
      ∀ blk ∈ blocks, blk.countP isRandBit = jb := by
  intro k
  induction k with
  | zero =>
    intro i idx
    exact ⟨[], by simp [gapLoop], rfl, by simp⟩
  | succ k ih =>
    intro i idx
    have hred := generateKeyBetween_valid prim bits (keys.get? i) (keys.get? (i + 1))
      opts idx jb hjb
    obtain ⟨blocks, hb1, hb2, hb3⟩ := ih (i + 1)
      ((jitterLoop prim opts.digits bits jb (keys.get? i) (keys.get? (i + 1))
        (prim (keys.get? i) (keys.get? (i + 1)) opts.digits) idx).2.2)
    refine ⟨(Event.primSingle (keys.get? i) (keys.get? (i + 1)) opts.digits ::
      (jitterLoop prim opts.digits bits jb (keys.get? i) (keys.get? (i + 1))
        (prim (keys.get? i) (keys.get? (i + 1)) opts.digits) idx).2.1) :: blocks,
      ?_, ?_, ?_⟩
    · simp only [gapLoop, hred]
      rw [hb1, List.flatten_cons]
    · simp [hb2]
    · intro blk hblk
      rcases List.mem_cons.mp hblk with h | h
      · subst h
        simp [List.countP_cons, isRandBit, jitterLoop_countP_rand]
      · exact hb3 blk h

/-- Claim C7: the single-key loop is exactly `jitterBits` iterations of the
narrowing step described by the spec (true bit raises the lower bound to the
midpoint, false bit lowers the upper bound, then one unjittered primitive
call recomputes the midpoint), the returned key is the midpoint after the
final iteration, one bit is consumed per iteration, and the unjittered
primitive is called once per iteration plus once initially. -/
theorem narrowing_loop_runs_spec_step
    (prim : Prim) (bits : Nat → Bool) (a b digits : Option String)
    (jb i₀ : Nat) :
    (generateKeyBetween prim bits a b ⟨digits, some ((jb : Nat) : Rat)⟩ i₀).1 =
      Except.ok (((specNarrowStep prim digits bits)^[jb]
        ⟨a, b, prim a b digits, i₀⟩).mid) ∧
    (generateKeyBetween prim bits a b ⟨digits, some ((jb : Nat) : Rat)⟩ i₀).2.2 =
      i₀ + jb ∧
    ((generateKeyBetween prim bits a b
        ⟨digits, some ((jb : Nat) : Rat)⟩ i₀).2.1.countP isPrimSingle) = jb + 1 := by
  have h := generateKeyBetween_valid prim bits a b ⟨digits, some ((jb : Nat) : Rat)⟩
    i₀ jb rfl
  rw [h]
  refine ⟨?_, ?_, ?_⟩
  · exact congrArg Except.ok
      (jitterLoop_fst_iterate prim digits bits jb ⟨a, b, prim a b digits, i₀⟩)
  · exact jitterLoop_idx prim digits bits jb a b (prim a b digits) i₀
  · rw [List.countP_cons]
    simp [isPrimSingle, jitterLoop_countP_single]

/-- Claim C4: the random-bit source is drawn exactly `jitterBits` times per
single-key call (advancing the stream index by `jitterBits`), exactly
`n * jitterBits` times per batch call of size `n`, and in the jittered batch
path the trace after the one batch-primitive call splits into one block per
gap, each block containing exactly `jitterBits` draws, gap after gap. -/
theorem entropy_accounting
    (prim : Prim) (primN : PrimN) (bits : Nat → Bool) (a b digits : Option String)
    (jb n i₀ : Nat) :
    (((generateKeyBetween prim bits a b
        ⟨digits, some ((jb : Nat) : Rat)⟩ i₀).2.1.countP isRandBit) = jb ∧
     (generateKeyBetween prim bits a b ⟨digits, some ((jb : Nat) : Rat)⟩ i₀).2.2 =
       i₀ + jb) ∧
    ((generateNKeysBetween prim primN bits a b ((n : Nat) : Rat)
        ⟨digits, some ((jb : Nat) : Rat)⟩ i₀).2.1.countP isRandBit) = n * jb ∧
    (∃ blocks : List (List Event),
      (generateNKeysBetween prim primN bits a b (((n + 1 : Nat)) : Rat)
          ⟨digits, some (((jb + 1 : Nat)) : Rat)⟩ i₀).2.1 =
        Event.primBatch a b (n + 2) digits :: blocks.flatten ∧
      blocks.length = n + 1 ∧
      ∀ blk ∈ blocks, blk.countP isRandBit = jb + 1) := by
  have hsingle := generateKeyBetween_valid prim bits a b
    ⟨digits, some ((jb : Nat) : Rat)⟩ i₀ jb rfl
  refine ⟨⟨?_, ?_⟩, ?_, ?_⟩
  · rw [hsingle, List.countP_cons]
    simp [isRandBit, jitterLoop_countP_rand]
  · rw [hsingle]
    exact jitterLoop_idx prim digits bits jb a b (prim a b digits) i₀
  · rcases Nat.eq_zero_or_pos n with hn | hn
    · subst hn
      rw [generateNKeysBetween_zero]
      simp
    · rcases Nat.eq_zero_or_pos jb with hjb | hjb
      · subst hjb
        have h0 : ((0 : Nat) : Rat) = (0 : Rat) := by norm_num
        rw [h0, generateNKeysBetween_pass prim primN bits a b digits n hn.ne' i₀]
        simp [isRandBit]
      · have hjb0 : (some ((jb : Nat) : Rat) : Option Rat) ≠ some (0 : Rat) := by
          simp [Nat.cast_eq_zero]
          omega
        rw [generateNKeysBetween_gapped prim primN bits a b digits
          (some ((jb : Nat) : Rat)) n hn.ne' hjb0 i₀, List.countP_cons]
        have := (gapLoop_rand_count prim bits ⟨digits, some ((jb : Nat) : Rat)⟩
          (primN a b (n + 1) digits) jb rfl n 0 i₀).1
        simp [isRandBit, this]
  · have hne : (((jb + 1 : Nat)) : Rat) ≠ 0 := by
      exact_mod_cast Nat.succ_ne_zero jb
    have hjb0 : (some (((jb + 1 : Nat)) : Rat) : Option Rat) ≠ some (0 : Rat) := by
      simpa using hne
    rw [generateNKeysBetween_gapped prim primN bits a b digits
      (some (((jb + 1 : Nat)) : Rat)) (n + 1) (Nat.succ_ne_zero n) hjb0 i₀]
    obtain ⟨blocks, hb1, hb2, hb3⟩ := gapLoop_blocks prim bits
      ⟨digits, some (((jb + 1 : Nat)) : Rat)⟩ (primN a b (n + 2) digits)
      (jb + 1) rfl (n + 1) 0 i₀
    exact ⟨blocks, by rw [← hb1], hb2, hb3⟩

lemma boundAbove_refl : ∀ a : Option String, boundAbove a a
  | none => trivial
  | some l => le_refl l

lemma boundBelow_refl : ∀ b : Option String, boundBelow b b
  | none => trivial
  | some h => le_refl h

lemma boundAbove_trans {a a' a'' : Option String}
    (h1 : boundAbove a a') (h2 : boundAbove a' a'') : boundAbove a a'' := by
  cases a with
  | none => trivial
  | some l =>
    cases a' with
    | none => exact absurd h1 id
    | some m =>
      cases a'' with
      | none => exact absurd h2 id
      | some p =>
        have hlm : l ≤ m := h1
        have hmp : m ≤ p := h2
        exact le_trans hlm hmp

lemma boundBelow_trans {b b' b'' : Option String}
    (h1 : boundBelow b b') (h2 : boundBelow b' b'') : boundBelow b b'' := by
  cases b'' with
  | none => cases b <;> trivial
  | some p =>
    cases b' with
    | none => exact absurd h2 id
    | some m =>
      cases b with
      | none => exact absurd h1 id
      | some l =>
        have hlm : l ≤ m := h1
        have hmp : m ≤ p := h2
        exact le_trans hlm hmp

/-- One narrowing step only raises the lower bound and only lowers the
upper bound, provided the midpoint lies inside the working interval. -/
lemma specNarrowStep_bounds (prim : Prim) (digits : Option String)
    (bits : Nat → Bool) (s : NarrowState) (h : InBounds s.low s.high s.mid) :
    boundAbove s.low (specNarrowStep prim digits bits s).low ∧
    boundBelow (specNarrowStep prim digits bits s).high s.high := by
  cases hb : bits s.idx with
  | true =>
    simp only [specNarrowStep, hb, if_pos]
    refine ⟨?_, boundBelow_refl _⟩
    cases hs : s.low with
    | none => trivial
    | some l =>
      have : l < s.mid := by
        have := h.1
        rw [hs] at this
        exact this
      exact le_of_lt this
  | false =>
    simp only [specNarrowStep, hb, if_neg]
    refine ⟨boundAbove_refl _, ?_⟩
    cases hs : s.high with
    | none => trivial
    | some hi =>
      have : s.mid < hi := by
        have := h.2
        rw [hs] at this
        exact this
      exact le_of_lt this

/-- The events of one unrolling of the implementation loop, written with
the specification step. -/
lemma jitterLoop_succ_events (prim : Prim) (digits : Option String)
    (bits : Nat → Bool) (K : Nat) (s : NarrowState) :
    (jitterLoop prim digits bits (K + 1) s.low s.high s.mid s.idx).2.1 =
      Event.randBit (bits s.idx) ::
      Event.primSingle (specNarrowStep prim digits bits s).low
        (specNarrowStep prim digits bits s).high digits ::
      (jitterLoop prim digits bits K (specNarrowStep prim digits bits s).low
        (specNarrowStep prim digits bits s).high
        (specNarrowStep prim digits bits s).mid
        (specNarrowStep prim digits bits s).idx).2.1 := by
  cases hb : bits s.idx <;> simp [jitterLoop, specNarrowStep, hb]

/-- Every narrowing iteration of a run calls the unjittered primitive on
the interval reached by that iteration, and this call is recorded in the
run trace. -/
lemma specStep_call_mem (prim : Prim) (digits : Option String) (bits : Nat → Bool) :
    ∀ (K : Nat) (s : NarrowState) (k : Nat), k < K →
      Event.primSingle ((specNarrowStep prim digits bits)^[k + 1] s).low
          ((specNarrowStep prim digits bits)^[k + 1] s).high digits ∈
        (jitterLoop prim digits bits K s.low s.high s.mid s.idx).2.1 := by
  intro K
  induction K with
  | zero => intro s k hk; exact absurd hk (Nat.not_lt_zero k)
  | succ K ih =>
    intro s k hk
    rw [jitterLoop_succ_events]
    cases k with
    | zero =>
      rw [Function.iterate_one]
      exact List.mem_cons_of_mem _ (List.mem_cons_self _ _)
    | succ k =>
      have hmem := ih (specNarrowStep prim digits bits s) k (Nat.lt_of_succ_lt_succ hk)
      rw [Function.iterate_succ_apply]
      exact List.mem_cons_of_mem _ (List.mem_cons_of_mem _ hmem)

/-- Invariant of the narrowing run: as long as the primitive honoured its
contract on the calls of the run, every reached state has its midpoint
strictly inside its working interval, a working lower bound at or above the
starting one, and a working upper bound at or below the starting one. -/
lemma iterate_invariant (prim : Prim) (primN : PrimN) (digits : Option String)
    (bits : Nat → Bool) :
    ∀ (K : Nat) (s : NarrowState),
      CallsOk prim primN (jitterLoop prim digits bits K s.low s.high s.mid s.idx).2.1 →
      InBounds s.low s.high s.mid →
      ∀ k, k ≤ K →
        InBounds ((specNarrowStep prim digits bits)^[k] s).low
          ((specNarrowStep prim digits bits)^[k] s).high
          ((specNarrowStep prim digits bits)^[k] s).mid ∧
        boundAbove s.low ((specNarrowStep prim digits bits)^[k] s).low ∧
        boundBelow ((specNarrowStep prim digits bits)^[k] s).high s.high := by
  intro K
  induction K with
  | zero =>
    intro s _ hmid k hk
    have hk0 : k = 0 := Nat.le_zero.mp hk
    subst hk0
    simpa using ⟨hmid, boundAbove_refl s.low, boundBelow_refl s.high⟩
  | succ K ih =>
    intro s hcalls hmid k hk
    cases k with
    | zero =>
      simpa using ⟨hmid, boundAbove_refl s.low, boundBelow_refl s.high⟩
    | succ k =>
      rw [jitterLoop_succ_events] at hcalls
      rw [CallsOk_cons, CallsOk_cons] at hcalls
      obtain ⟨-, hev, hrest⟩ := hcalls
      have hmid' : InBounds (specNarrowStep prim digits bits s).low
          (specNarrowStep prim digits bits s).high
          (specNarrowStep prim digits bits s).mid := hev
      have hIH := ih (specNarrowStep prim digits bits s) hrest hmid' k
        (Nat.lt_succ_iff.mp hk)
      rw [Function.iterate_succ_apply]
      refine ⟨hIH.1, ?_, ?_⟩
      · exact boundAbove_trans (specNarrowStep_bounds prim digits bits s hmid).1 hIH.2.1
      · exact boundBelow_trans hIH.2.2 (specNarrowStep_bounds prim digits bits s hmid).2

/-- Claim C9: throughout the narrowing loop (primitive contract assumed on
the calls of the run), the interval stays nested: at every iteration count
`k ≤ jitterBits` the midpoint lies strictly inside the working interval,
the working lower bound is at or above the original one, the working upper
bound is at or below the original one, and each further step within the
loop only raises the lower bound and only lowers the upper bound (absent
bounds are unbounded). -/
theorem narrowing_interval_nested
    (prim : Prim) (primN : PrimN) (bits : Nat → Bool) (a b digits : Option String)
    (jb i₀ k : Nat) (hk : k ≤ jb)
    (hcalls : CallsOk prim primN
      (generateKeyBetween prim bits a b ⟨digits, some ((jb : Nat) : Rat)⟩ i₀).2.1) :
    InBounds ((specNarrowStep prim digits bits)^[k] ⟨a, b, prim a b digits, i₀⟩).low
      ((specNarrowStep prim digits bits)^[k] ⟨a, b, prim a b digits, i₀⟩).high
      ((specNarrowStep prim digits bits)^[k] ⟨a, b, prim a b digits, i₀⟩).mid ∧
    boundAbove a
      ((specNarrowStep prim digits bits)^[k] ⟨a, b, prim a b digits, i₀⟩).low ∧
    boundBelow
      ((specNarrowStep prim digits bits)^[k] ⟨a, b, prim a b digits, i₀⟩).high b ∧
    (k < jb →
      boundAbove
        ((specNarrowStep prim digits bits)^[k] ⟨a, b, prim a b digits, i₀⟩).low
        ((specNarrowStep prim digits bits)^[k + 1] ⟨a, b, prim a b digits, i₀⟩).low ∧
      boundBelow
        ((specNarrowStep prim digits bits)^[k + 1] ⟨a, b, prim a b digits, i₀⟩).high
        ((specNarrowStep prim digits bits)^[k] ⟨a, b, prim a b digits, i₀⟩).high) := by
  rw [generateKeyBetween_valid prim bits a b ⟨digits, some ((jb : Nat) : Rat)⟩ i₀ jb rfl]
    at hcalls
  rw [CallsOk_cons] at hcalls
  obtain ⟨hev, hrest⟩ := hcalls
  have hmid : InBounds a b (prim a b digits) := hev
  have hinv := iterate_invariant prim primN digits bits jb
    ⟨a, b, prim a b digits, i₀⟩ hrest hmid
  refine ⟨(hinv k hk).1, (hinv k hk).2.1, (hinv k hk).2.2, ?_⟩
  intro _hklt
  have hstep := specNarrowStep_bounds prim digits bits
    ((specNarrowStep prim digits bits)^[k] ⟨a, b, prim a b digits, i₀⟩) (hinv k hk).1
  rw [Function.iterate_succ_apply']
  exact hstep

/-- Witness for C9 at a concrete primitive, bit stream and bounds. -/
theorem narrowing_interval_nested_witness :
    1 ≤ 2 ∧
    CallsOk primW primNW
      (generateKeyBetween primW bitsW (some "b") (some "d")
        ⟨none, some ((2 : Nat) : Rat)⟩ 0).2.1 ∧
    (InBounds ((specNarrowStep primW none bitsW)^[1]
        ⟨some "b", some "d", primW (some "b") (some "d") none, 0⟩).low
      ((specNarrowStep primW none bitsW)^[1]
        ⟨some "b", some "d", primW (some "b") (some "d") none, 0⟩).high
      ((specNarrowStep primW none bitsW)^[1]
        ⟨some "b", some "d", primW (some "b") (some "d") none, 0⟩).mid ∧
    boundAbove (some "b")
      ((specNarrowStep primW none bitsW)^[1]
        ⟨some "b", some "d", primW (some "b") (some "d") none, 0⟩).low ∧
    boundBelow
      ((specNarrowStep primW none bitsW)^[1]
        ⟨some "b", some "d", primW (some "b") (some "d") none, 0⟩).high (some "d") ∧
    (1 < 2 →
      boundAbove
        ((specNarrowStep primW none bitsW)^[1]
          ⟨some "b", some "d", primW (some "b") (some "d") none, 0⟩).low
        ((specNarrowStep primW none bitsW)^[1 + 1]
          ⟨some "b", some "d", primW (some "b") (some "d") none, 0⟩).low ∧
      boundBelow
        ((specNarrowStep primW none bitsW)^[1 + 1]
          ⟨some "b", some "d", primW (some "b") (some "d") none, 0⟩).high
        ((specNarrowStep primW none bitsW)^[1]
          ⟨some "b", some "d", primW (some "b") (some "d") none, 0⟩).high)) :=
  ⟨by decide, by decide,
    narrowing_interval_nested primW primNW bitsW (some "b") (some "d") none 2 0 1
      (by decide) (by decide)⟩

end JitteredFractionalIndexing
